import Mathlib

/-!
Verification of the MinHash/LSH near-duplicate search program (src/main.rs).

Modelling conventions (shallow embedding of the Rust source):

* Documents and queries are `List Char` (the corpus in the program is ASCII,
  so byte slicing and char slicing agree).
* The standard-library `DefaultHasher` is deterministic within a run (SipHash
  with fixed zero keys); it is embedded as uninterpreted parameters
  `h : List Char → Nat` for hashing a shingle `&str` and
  `hb : List Nat → Nat` for hashing a band `&[u64]`.  Hash values are `Nat`
  (the program never does arithmetic on them, only comparison and equality,
  so no modulus is needed).
* Panics are modelled by `Option`: `none` is abnormal termination.  The
  sources of panics in this code are (a) `document.len() - SHINGLE_SIZE + 1`
  and `document.len() - SHINGLE_SIZE` underflowing for documents shorter
  than `SHINGLE_SIZE` (overflow-checked arithmetic; in release builds the
  wrapped value leads to an out-of-bounds slice panic on the same inputs),
  (b) `documents[*m]` indexing out of bounds, and (c)
  `partial_cmp(..).unwrap()` inside the sort comparator hitting a NaN.
* `f32` similarity values are modelled as `Option ℚ` where `none` plays NaN
  (produced exactly by the `0.0/0.0` division in `jaccard_similarity`).
  Finite quotients of small naturals are represented exactly as rationals;
  all concrete inputs used below have exactly representable values.
* `BinaryHeap<Reverse<u64>>` filled with all shingle hashes and popped up to
  `HASH_COUNT` times yields the hashes in ascending order with multiplicity,
  i.e. `(insertionSort (· ≤ ·) hashes).take HASH_COUNT`.  Equal keys are
  indistinguishable `u64` values, so heap pop order equals the sorted order.
* `slice::sort_by` is a stable sort; with the comparator
  `|a, b| b.1.partial_cmp(&a.1).unwrap()` (descending by similarity) it is
  embedded as the stable `List.insertionSort` under the total preorder
  `rDesc`.  A stable sort's output under a total preorder is unique, so any
  correct stable sort agrees with `insertionSort`.  If the scored list has
  at least two entries and contains a NaN, every stable sort must invoke the
  comparator on the NaN entry, and `unwrap` panics; with at most one entry
  the comparator is never invoked.
* `HashSet`/`HashMap` use a randomly seeded `RandomState` per run, so the
  iteration order of the candidate `HashSet<usize>` observed by
  `nearest_neighbors` is run-dependent.  That order is made explicit as an
  `enum : List Nat` parameter; `validEnum m enum` says `enum` is a possible
  iteration order of the set `m` (each element exactly once).
* The per-band `HashMap<u64, Vec<usize>>` tables are embedded as total
  functions `Nat → Nat → List Nat` (band slot → bucket key → ids), with the
  empty list for an absent key: the program only ever inserts a key together
  with a pushed id, so a present key always has a nonempty list, and
  `matches.extend` of an absent key is a no-op either way.
-/

def SHINGLE_SIZE : Nat := 4

def HASH_COUNT : Nat := 100

def BAND_SIZE : Nat := 2

abbrev HashF := List Char → Nat

abbrev BandHashF := List Nat → Nat

abbrev F := Option ℚ

/-- The shingle starting at byte `i`: `&document[idx..idx + SHINGLE_SIZE]`. -/
def shingleAt (doc : List Char) (i : Nat) : List Char :=
  (doc.drop i).take SHINGLE_SIZE

/-- The shingle hashes fed into the heap in `chunked_min_hash`
(`for idx in 0..shingle_count` with `shingle_count = len - SHINGLE_SIZE + 1`). -/
def shingleHashes (h : HashF) (doc : List Char) : List Nat :=
  (List.range (doc.length - SHINGLE_SIZE + 1)).map (fun i => h (shingleAt doc i))

/-- Lines 19-41 of `chunked_min_hash`: build a min-heap of all shingle hashes
and pop at most `HASH_COUNT` of them (ascending, duplicates kept).  `none`
models the underflow panic of `document.len() - SHINGLE_SIZE + 1` when the
document is shorter than `SHINGLE_SIZE`. -/
def min_hash_signature (h : HashF) (doc : List Char) : Option (List Nat) :=
  if doc.length < SHINGLE_SIZE then none
  else some ((List.insertionSort (· ≤ ·) (shingleHashes h doc)).take HASH_COUNT)

/-- `slice::chunks(2)`: non-overlapping chunks of width `BAND_SIZE = 2`,
including a trailing partial chunk when the length is odd. -/
def chunks2 {α : Type _} : List α → List (List α)
  | [] => []
  | [a] => [[a]]
  | a :: b :: rest => [a, b] :: chunks2 rest

/-- `chunked_min_hash`: the banded signature, i.e.
`hashes.chunks(BAND_SIZE).map(hash).enumerate()` as (band slot, bucket key)
pairs. -/
def chunked_min_hash (h : HashF) (hb : BandHashF) (doc : List Char) :
    Option (List (Nat × Nat)) :=
  (min_hash_signature h doc).map (fun sig => ((chunks2 sig).map hb).enum)

/-- `string_shingles`: the shingle-hash set used for exact reranking.  Note
the source uses `shingle_count = document.len() - SHINGLE_SIZE` here (no
`+ 1`), unlike `chunked_min_hash`.  `none` models the underflow panic for
documents shorter than `SHINGLE_SIZE`. -/
def string_shingles (h : HashF) (doc : List Char) : Option (Finset Nat) :=
  if doc.length < SHINGLE_SIZE then none
  else some (((List.range (doc.length - SHINGLE_SIZE)).map
    (fun i => h (shingleAt doc i))).toFinset)

/-- `jaccard_similarity`: `|a ∩ b| / (|a| + |b| - |a ∩ b|)` as `f32`.
When the denominator is zero (both sets empty) the `f32` division
`0.0 / 0.0` yields NaN, modelled as `none`. -/
def jaccard_similarity (a b : Finset Nat) : F :=
  let inter := (a ∩ b).card
  let denom := a.card + b.card - inter
  if denom = 0 then none else some ((inter : ℚ) / (denom : ℚ))

/-- The comparison key used by the sort in `nearest_neighbors` (the `f32`
similarity; the NaN case never reaches a comparison in the non-panicking
branch). -/
def simVal (p : Nat × F) : ℚ :=
  p.2.getD 0

/-- Descending-by-similarity: the total preorder realised by the comparator
`|a, b| b.1.partial_cmp(&a.1).unwrap()` on NaN-free inputs. -/
abbrev rDesc (a b : Nat × F) : Prop := simVal b ≤ simVal a

instance : IsTotal (Nat × F) rDesc :=
  ⟨fun a b => le_total (simVal b) (simVal a)⟩

instance : IsTrans (Nat × F) rDesc :=
  ⟨fun _ _ _ hab hbc => le_trans hbc hab⟩

/-- Strictly-descending-by-similarity; used to show sorted outputs are
unique once all similarities are distinct. -/
abbrev rStrict (a b : Nat × F) : Prop := simVal b < simVal a

instance : IsAntisymm (Nat × F) rStrict :=
  ⟨fun _ _ hab hba => absurd (lt_trans hab hba) (lt_irrefl _)⟩

/-- Effectful map over a list in the `Option` (panic) monad, propagating the
first panic. -/
def optMapList {α β : Type _} (f : α → Option β) : List α → Option (List β)
  | [] => some []
  | x :: xs => (f x).bind (fun y => (optMapList f xs).map (fun ys => y :: ys))

/-- The body of the `matches.par_iter().map(..)` in `nearest_neighbors`:
look each candidate document up (panicking if the id is out of bounds),
shingle it (panicking if it is too short) and score it against the query
shingles.  `enum` is the observed iteration order of the candidate set. -/
def scoreList (h : HashF) (qs : Finset Nat) (enum : List Nat)
    (docs : List (List Char)) : Option (List (Nat × F)) :=
  optMapList (fun m =>
    (docs.get? m).bind (fun doc => (string_shingles h doc).map
      (fun ds => (m, jaccard_similarity qs ds)))) enum

/-- `nearest_neighbors`: score every candidate, sort descending by
similarity with the stable `sort_by`, panic (`none`) if the comparator is
ever invoked on a NaN (which happens exactly when the scored list has at
least two entries and contains a NaN), then truncate to `n`
(`resize` only shrinks, since it is guarded by `len > n`). -/
def nearest_neighbors (h : HashF) (q : List Char) (n : Nat) (enum : List Nat)
    (docs : List (List Char)) : Option (List (Nat × F)) :=
  (string_shingles h q).bind (fun qs =>
    (scoreList h qs enum docs).bind (fun scored =>
      if 2 ≤ scored.length ∧ ∃ p ∈ scored, p.2 = none then none
      else some ((List.insertionSort rDesc scored).take n)))

/-- The per-band bucket tables: band slot → bucket key → document ids, in
insertion order. -/
def Buckets : Type := Nat → Nat → List Nat

def emptyBuckets : Buckets := fun _ _ => []

/-- `bucket.entry(*min_hash).or_insert(vec![]).push(document_index)`. -/
def bucket_insert (B : Buckets) (slot key d : Nat) : Buckets :=
  fun i k => if i = slot ∧ k = key then B i k ++ [d] else B i k

/-- The inner loop of `index_documents`: insert one document's banded
signature into the tables. -/
def insertDoc (B : Buckets) (d : Nat) (sig : List (Nat × Nat)) : Buckets :=
  sig.foldl (fun Bacc p => bucket_insert Bacc p.1 p.2 d) B

/-- The outer loop of `index_documents`: documents in corpus order, ids
assigned by position. -/
def build_from (B : Buckets) (d : Nat) : List (List (Nat × Nat)) → Buckets
  | [] => B
  | sig :: rest => build_from (insertDoc B d sig) (d + 1) rest

/-- `index_documents`: compute every document's banded signature (a panic in
any one of them aborts the whole build — there is no skip list in this
code), then fold them into the bucket tables. -/
def index_documents (h : HashF) (hb : BandHashF) (docs : List (List Char)) :
    Option Buckets :=
  (optMapList (chunked_min_hash h hb) docs).map (build_from emptyBuckets 0)

/-- The candidate-collection phase of `search_index`: union the bucket lists
of the query's (band slot, bucket key) pairs.  The `contains_key` guard in
the source is a no-op here since absent keys map to the empty list. -/
def search_matches (h : HashF) (hb : BandHashF) (B : Buckets)
    (q : List Char) : Option (Finset Nat) :=
  (chunked_min_hash h hb q).map (fun sig =>
    sig.foldl (fun acc p => acc ∪ (B p.1 p.2).toFinset) (∅ : Finset Nat))

/-- `search_index`: candidate collection followed by exact reranking. -/
def search_index (h : HashF) (hb : BandHashF) (docs : List (List Char))
    (B : Buckets) (q : List Char) (n : Nat) (enum : List Nat) :
    Option (Finset Nat × List (Nat × F)) :=
  (search_matches h hb B q).bind (fun m =>
    (nearest_neighbors h q n enum docs).map (fun l => (m, l)))

/-- `enum` is a possible iteration order of the `HashSet` `m`: every element
exactly once. -/
def validEnum (m : Finset Nat) (enum : List Nat) : Prop :=
  enum.Nodup ∧ enum.toFinset = m

/-- The ordering asserted by the spec for result lists: strictly descending
similarity, with equal similarities tie-broken by ascending document id. -/
abbrev descWithIdTieBreak (l : List (Nat × F)) : Prop :=
  l.Pairwise (fun a b => simVal b < simVal a ∨ (simVal a = simVal b ∧ a.1 < b.1))

/-- A concrete, easily evaluable stand-in for `DefaultHasher` on shingles
(injective on the short ASCII inputs used below). -/
def hTest : HashF := fun l => l.foldl (fun a c => a * 256 + c.toNat) 1

/-- A concrete stand-in for `DefaultHasher` on bands. -/
def hbTest : BandHashF := fun l => l.foldl (fun a x => a * 1000003 + x) 2

/-- A degenerate shingle hasher (constant 0), used to build a long signature
cheaply. -/
def hZero : HashF := fun _ => 0

def dAAAA : List Char := ['A', 'A', 'A', 'A']

def dBBBB : List Char := ['B', 'B', 'B', 'B']

def dA5 : List Char := ['A', 'A', 'A', 'A', 'A']

def dAB : List Char := ['A', 'B']

def dABCDE : List Char := ['A', 'B', 'C', 'D', 'E']

def dABCDEF : List Char := ['A', 'B', 'C', 'D', 'E', 'F']

def dQWXYZ : List Char := ['Q', 'W', 'X', 'Y', 'Z']

/-! Helper lemmas. -/

theorem enumFrom_get? {α : Type _} (l : List α) :
    ∀ (s j : Nat), (l.enumFrom s).get? j = (l.get? j).map (fun a => (s + j, a)) := by
  induction l with
  | nil => intro s j; simp [List.enumFrom]
  | cons x xs ih =>
    intro s j
    cases j with
    | zero => simp [List.enumFrom]
    | succ j =>
      simp only [List.enumFrom, List.get?_cons_succ, ih (s + 1) j]
      have hadd : s + 1 + j = s + (j + 1) := by omega
      rw [hadd]

theorem enum_get? {α : Type _} (l : List α) (j : Nat) :
    l.enum.get? j = (l.get? j).map (fun a => (j, a)) := by
  have hef := enumFrom_get? l 0 j
  simp only [Nat.zero_add] at hef
  exact hef

theorem mem_enum_iff {α : Type _} (l : List α) (i : Nat) (a : α) :
    (i, a) ∈ l.enum ↔ l.get? i = some a := by
  rw [List.mem_iff_get?]
  constructor
  · rintro ⟨n, hn⟩
    rw [enum_get? l n] at hn
    cases h : l.get? n with
    | none => rw [h] at hn; simp at hn
    | some b =>
      rw [h] at hn
      simp only [Option.map_some'] at hn
      obtain ⟨h1, h2⟩ := Prod.mk.injEq .. ▸ Option.some.inj hn
      subst h1; subst h2; exact h
  · intro hgt
    exact ⟨i, by rw [enum_get? l i, hgt]; rfl⟩

theorem optMapList_length {α β : Type _} {f : α → Option β} :
    ∀ {l : List α} {s : List β}, optMapList f l = some s → s.length = l.length := by
  intro l
  induction l with
  | nil => intro s hs; simp [optMapList] at hs; subst hs; rfl
  | cons x xs ih =>
    intro s hs
    simp only [optMapList] at hs
    cases hfx : f x with
    | none => rw [hfx] at hs; simp at hs
    | some y =>
      rw [hfx] at hs
      cases hxs : optMapList f xs with
      | none => rw [hxs] at hs; simp at hs
      | some ys =>
        rw [hxs] at hs
        simp only [Option.some_bind, Option.map_some'] at hs
        obtain rfl := Option.some.inj hs
        simp [ih hxs]

theorem optMapList_get? {α β : Type _} {f : α → Option β} :
    ∀ {l : List α} {s : List β}, optMapList f l = some s →
      ∀ j, s.get? j = (l.get? j).bind f := by
  intro l
  induction l with
  | nil =>
    intro s hs j
    simp [optMapList] at hs
    subst hs
    simp
  | cons x xs ih =>
    intro s hs j
    simp only [optMapList] at hs
    cases hfx : f x with
    | none => rw [hfx] at hs; simp at hs
    | some y =>
      rw [hfx] at hs
      cases hxs : optMapList f xs with
      | none => rw [hxs] at hs; simp at hs
      | some ys =>
        rw [hxs] at hs
        simp only [Option.some_bind, Option.map_some'] at hs
        obtain rfl := Option.some.inj hs
        cases j with
        | zero => simp [hfx]
        | succ j => simpa using ih hxs j

theorem optMapList_mem {α β : Type _} {f : α → Option β} :
    ∀ {l : List α} {s : List β}, optMapList f l = some s →
      ∀ y ∈ s, ∃ x ∈ l, f x = some y := by
  intro l
  induction l with
  | nil => intro s hs y hy; simp [optMapList] at hs; subst hs; simp at hy
  | cons x xs ih =>
    intro s hs y hy
    simp only [optMapList] at hs
    cases hfx : f x with
    | none => rw [hfx] at hs; simp at hs
    | some z =>
      rw [hfx] at hs
      cases hxs : optMapList f xs with
      | none => rw [hxs] at hs; simp at hs
      | some ys =>
        rw [hxs] at hs
        simp only [Option.some_bind, Option.map_some'] at hs
        obtain rfl := Option.some.inj hs
        rcases List.mem_cons.mp hy with rfl | hmem
        · exact ⟨x, List.mem_cons_self x xs, hfx⟩
        · obtain ⟨w, hw, hfw⟩ := ih hxs y hmem
          exact ⟨w, List.mem_cons_of_mem x hw, hfw⟩

theorem optMapList_eq_map {α β : Type _} {f : α → Option β} (d : β) :
    ∀ {l : List α} {s : List β}, optMapList f l = some s →
      s = l.map (fun x => (f x).getD d) := by
  intro l
  induction l with
  | nil => intro s hs; simp [optMapList] at hs; subst hs; rfl
  | cons x xs ih =>
    intro s hs
    simp only [optMapList] at hs
    cases hfx : f x with
    | none => rw [hfx] at hs; simp at hs
    | some y =>
      rw [hfx] at hs
      cases hxs : optMapList f xs with
      | none => rw [hxs] at hs; simp at hs
      | some ys =>
        rw [hxs] at hs
        simp only [Option.some_bind, Option.map_some'] at hs
        obtain rfl := Option.some.inj hs
        simp [List.map, hfx, ih hxs]

theorem mem_bucket_insert {B : Buckets} {slot key d i k x : Nat} :
    x ∈ bucket_insert B slot key d i k ↔
      x ∈ B i k ∨ (i = slot ∧ k = key ∧ x = d) := by
  unfold bucket_insert
  by_cases hik : i = slot ∧ k = key
  · obtain ⟨h1, h2⟩ := hik
    subst h1; subst h2
    simp
  · simp only [if_neg hik, List.mem_append]
    constructor
    · intro hx; exact Or.inl hx
    · rintro (hx | ⟨h1, h2, _⟩)
      · exact hx
      · exact absurd ⟨h1, h2⟩ hik

theorem mem_insertDoc {x i k d : Nat} :
    ∀ (sig : List (Nat × Nat)) (B : Buckets),
      x ∈ insertDoc B d sig i k ↔ x ∈ B i k ∨ ((i, k) ∈ sig ∧ x = d) := by
  intro sig
  induction sig with
  | nil => intro B; simp [insertDoc]
  | cons p ps ih =>
    intro B
    unfold insertDoc at ih ⊢
    simp only [List.foldl_cons]
    rw [ih (bucket_insert B p.1 p.2 d), mem_bucket_insert]
    simp only [List.mem_cons, Prod.ext_iff]
    tauto

theorem mem_build_from {x i k : Nat} :
    ∀ (sigs : List (List (Nat × Nat))) (B : Buckets) (d : Nat),
      x ∈ build_from B d sigs i k ↔
        x ∈ B i k ∨ ∃ j sj, sigs.get? j = some sj ∧ x = d + j ∧ (i, k) ∈ sj := by
  intro sigs
  induction sigs with
  | nil => intro B d; simp [build_from]
  | cons s rest ih =>
    intro B d
    simp only [build_from]
    rw [ih (insertDoc B d s) (d + 1), mem_insertDoc]
    constructor
    · rintro ((hB | ⟨hmem, rfl⟩) | ⟨j, sj, hget, hx, hsj⟩)
      · exact Or.inl hB
      · exact Or.inr ⟨0, s, rfl, by omega, hmem⟩
      · exact Or.inr ⟨j + 1, sj, by simpa using hget, by omega, hsj⟩
    · rintro (hB | ⟨j, sj, hget, hx, hsj⟩)
      · exact Or.inl (Or.inl hB)
      · cases j with
        | zero =>
          simp only [List.get?_cons_zero] at hget
          obtain rfl := Option.some.inj hget
          exact Or.inl (Or.inr ⟨hsj, by omega⟩)
        | succ j =>
          exact Or.inr ⟨j, sj, by simpa using hget, by omega, hsj⟩

theorem mem_index_iff {h : HashF} {hb : BandHashF} {docs : List (List Char)}
    {B : Buckets} (hB : index_documents h hb docs = some B) (i k x : Nat) :
    x ∈ B i k ↔ ∃ da sig, docs.get? x = some da ∧
      chunked_min_hash h hb da = some sig ∧ (i, k) ∈ sig := by
  unfold index_documents at hB
  cases hsigs : optMapList (chunked_min_hash h hb) docs with
  | none => rw [hsigs] at hB; simp at hB
  | some sigs =>
    rw [hsigs] at hB
    simp only [Option.map_some'] at hB
    obtain rfl := Option.some.inj hB
    rw [mem_build_from sigs emptyBuckets 0]
    simp only [emptyBuckets, List.not_mem_nil, false_or]
    constructor
    · rintro ⟨j, sj, hget, hx, hsj⟩
      have hx' : x = j := by omega
      subst hx'
      have hgj := optMapList_get? hsigs x
      rw [hget] at hgj
      cases hda : docs.get? x with
      | none => rw [hda] at hgj; simp at hgj
      | some da =>
        rw [hda] at hgj
        simp only [Option.some_bind] at hgj
        exact ⟨da, sj, rfl, hgj.symm, hsj⟩
    · rintro ⟨da, sig, hda, hch, hmem⟩
      refine ⟨x, sig, ?_, by omega, hmem⟩
      rw [optMapList_get? hsigs x, hda]
      simpa using hch

theorem mem_foldl_union (B : Buckets) (x : Nat) :
    ∀ (sig : List (Nat × Nat)) (init : Finset Nat),
      x ∈ sig.foldl (fun acc p => acc ∪ (B p.1 p.2).toFinset) init ↔
        x ∈ init ∨ ∃ p ∈ sig, x ∈ B p.1 p.2 := by
  intro sig
  induction sig with
  | nil => intro init; simp
  | cons p ps ih =>
    intro init
    simp only [List.foldl_cons]
    rw [ih (init ∪ (B p.1 p.2).toFinset)]
    simp only [Finset.mem_union, List.mem_toFinset, List.mem_cons]
    constructor
    · rintro ((hx | hx) | ⟨q, hq, hxq⟩)
      · exact Or.inl hx
      · exact Or.inr ⟨p, Or.inl rfl, hx⟩
      · exact Or.inr ⟨q, Or.inr hq, hxq⟩
    · rintro (hx | ⟨q, hq | hq, hxq⟩)
      · exact Or.inl (Or.inl hx)
      · subst hq; exact Or.inl (Or.inr hxq)
      · exact Or.inr ⟨q, hq, hxq⟩

theorem search_matches_eq {h : HashF} {hb : BandHashF} {B : Buckets}
    {q : List Char} {sigq : List (Nat × Nat)}
    (hq : chunked_min_hash h hb q = some sigq) :
    search_matches h hb B q =
      some (sigq.foldl (fun acc p => acc ∪ (B p.1 p.2).toFinset) ∅) := by
  simp [search_matches, hq]

theorem mem_search_matches {h : HashF} {hb : BandHashF} {B : Buckets}
    {q : List Char} {sigq : List (Nat × Nat)} {M : Finset Nat}
    (hq : chunked_min_hash h hb q = some sigq)
    (hM : search_matches h hb B q = some M) (x : Nat) :
    x ∈ M ↔ ∃ p ∈ sigq, x ∈ B p.1 p.2 := by
  rw [search_matches_eq hq] at hM
  obtain rfl := Option.some.inj hM
  rw [mem_foldl_union B x sigq ∅]
  simp

theorem chunks2_length {α : Type _} :
    ∀ (n : Nat) (l : List α), l.length ≤ n →
      (chunks2 l).length = (l.length + 1) / 2 := by
  intro n
  induction n with
  | zero =>
    intro l hl
    have hnil : l = [] := List.eq_nil_of_length_eq_zero (Nat.le_antisymm hl (Nat.zero_le _))
    subst hnil
    simp [chunks2]
  | succ n ih =>
    intro l hl
    cases l with
    | nil => simp [chunks2]
    | cons a t =>
      cases t with
      | nil => simp [chunks2]
      | cons b rest =>
        have hr : rest.length ≤ n := by simp at hl; omega
        simp only [chunks2, List.length_cons, ih rest hr]
        omega

theorem chunks2_get? {α : Type _} :
    ∀ (j : Nat) (l : List α), 2 * j + 2 ≤ l.length →
      (chunks2 l).get? j = some ((l.drop (2 * j)).take 2) := by
  intro j
  induction j with
  | zero =>
    intro l hl
    cases l with
    | nil => simp at hl
    | cons a t =>
      cases t with
      | nil => simp at hl
      | cons b rest => simp [chunks2]
  | succ j ih =>
    intro l hl
    cases l with
    | nil => simp at hl
    | cons a t =>
      cases t with
      | nil => simp at hl
      | cons b rest =>
        have hr : 2 * j + 2 ≤ rest.length := by simp at hl; omega
        simp only [chunks2, List.get?_cons_succ, ih rest hr]
        have hdrop : (2 : Nat) * (j + 1) = 2 * j + 1 + 1 := by ring
        rw [hdrop, List.drop_succ_cons, List.drop_succ_cons]

theorem scoreList_mem {h : HashF} {qs : Finset Nat} {enum : List Nat}
    {docs : List (List Char)} {s : List (Nat × F)}
    (hs : scoreList h qs enum docs = some s) :
    ∀ p ∈ s, p.1 ∈ enum ∧ ∃ doc ds, docs.get? p.1 = some doc ∧
      string_shingles h doc = some ds ∧ p.2 = jaccard_similarity qs ds := by
  intro p hp
  obtain ⟨x, hx, hfx⟩ := optMapList_mem hs p hp
  cases hdoc : docs.get? x with
  | none => rw [hdoc] at hfx; simp at hfx
  | some doc =>
    rw [hdoc] at hfx
    simp only [Option.some_bind] at hfx
    cases hss : string_shingles h doc with
    | none => rw [hss] at hfx; simp at hfx
    | some ds =>
      rw [hss] at hfx
      simp only [Option.map_some'] at hfx
      obtain rfl := (Option.some.inj hfx).symm
      exact ⟨hx, doc, ds, hdoc, hss, rfl⟩

theorem nearest_some_elim {h : HashF} {q : List Char} {n : Nat}
    {enum : List Nat} {docs : List (List Char)} {l : List (Nat × F)}
    (hl : nearest_neighbors h q n enum docs = some l) :
    ∃ qs scored, string_shingles h q = some qs ∧
      scoreList h qs enum docs = some scored ∧
      ¬(2 ≤ scored.length ∧ ∃ p ∈ scored, p.2 = none) ∧
      l = (List.insertionSort rDesc scored).take n := by
  unfold nearest_neighbors at hl
  cases hq : string_shingles h q with
  | none => rw [hq] at hl; simp at hl
  | some qs =>
    rw [hq] at hl
    simp only [Option.some_bind] at hl
    cases hsc : scoreList h qs enum docs with
    | none => rw [hsc] at hl; simp at hl
    | some scored =>
      rw [hsc] at hl
      simp only [Option.some_bind] at hl
      by_cases hcond : 2 ≤ scored.length ∧ ∃ p ∈ scored, p.2 = none
      · rw [if_pos hcond] at hl; simp at hl
      · rw [if_neg hcond] at hl
        exact ⟨qs, scored, rfl, hsc, hcond, (Option.some.inj hl).symm⟩

/-! Concrete indexes used by counterexamples and witnesses. -/

/-- The index built over the one-document corpus `["ABCDE"]`. -/
def B1 : Buckets := (index_documents hTest hbTest [dABCDE]).getD emptyBuckets

/-! Claim theorems. -/

/-- C1, counterexample: the program defines no `DocumentTooShortError` at
all; querying an index with the 2-character string "AB" (shorter than
`SHINGLE_SIZE = 4`) makes `search_index` terminate abnormally — the
computation of `document.len() - SHINGLE_SIZE + 1` in `chunked_min_hash`
panics (arithmetic underflow; an out-of-bounds slice panic in release
builds).  `none` is that panic, so the claim's "fails with
`DocumentTooShortError` rather than terminating abnormally" is false at
this input. -/
theorem C1_counterexample :
    search_index hTest hbTest [dABCDE] B1 dAB 5 [] = none := by
  rfl

/-- C1, amended: for every query shorter than `SHINGLE_SIZE`, `search_index`
terminates abnormally (panics), whatever the corpus, index, result budget
and candidate-iteration order. -/
theorem C1_amended (h : HashF) (hb : BandHashF) (docs : List (List Char))
    (B : Buckets) (q : List Char) (n : Nat) (enum : List Nat)
    (hq : q.length < SHINGLE_SIZE) :
    search_index h hb docs B q n enum = none := by
  simp [search_index, search_matches, chunked_min_hash, min_hash_signature, hq]

/-- C1, witness for the amended theorem at the concrete query "X". -/
theorem C1_witness : search_index hTest hbTest [] emptyBuckets ['X'] 0 [] = none :=
  C1_amended hTest hbTest [] emptyBuckets ['X'] 0 [] (by decide)

/-- C2: on the 4-character document "AAAA" (length exactly `SHINGLE_SIZE`),
`string_shingles` returns the empty set — it iterates
`0..(len - SHINGLE_SIZE)`, producing `L - S` shingles — while the claim
(and the signature pipeline: `shingleHashes`, the population
`chunked_min_hash` feeds its heap from, per its `0..(len - SHINGLE_SIZE + 1)`
loop) has the `L - S + 1 = 1` shingle `hash("AAAA")`.  The two populations
differ: an off-by-one in `string_shingles`. -/
theorem C2_divergence :
    string_shingles hTest dAAAA = some ∅ ∧
    shingleHashes hTest dAAAA = [hTest dAAAA] ∧
    min_hash_signature hTest dAAAA = some [hTest dAAAA] ∧
    (∅ : Finset Nat) ≠ ({hTest dAAAA} : Finset Nat) := by
  refine ⟨rfl, by decide, by decide, by decide⟩

/-- C3, counterexample: the document "AAAAA" has two shingle positions, both
equal to "AAAA", and the heap in `chunked_min_hash` receives the same hash
twice — nothing deduplicates at the shingle-set level.  The resulting
signature is `[c, c]`, not a list of distinct values as the claim states. -/
theorem C3_counterexample :
    min_hash_signature hTest dA5 = some [hTest dAAAA, hTest dAAAA] ∧
    ¬ ((min_hash_signature hTest dA5).getD []).Nodup := by
  refine ⟨by decide, by decide⟩

/-- C3, amended: for every document with at least one shingle, the signature
is the `HASH_COUNT` smallest shingle-hash values counted WITH multiplicity
(duplicates are kept, not deduplicated), in ascending order, and its length
is `min HASH_COUNT shingle_position_count` where the position count is
`L - S + 1`: there is a split of the shingle-hash multiset into the
signature and a remainder with every signature value ≤ every remainder
value. -/
theorem C3_amended (h : HashF) (doc : List Char)
    (hlen : SHINGLE_SIZE ≤ doc.length) :
    ∃ sig rest, min_hash_signature h doc = some sig ∧
      sig.Sorted (fun x y => x ≤ y) ∧
      sig.length = min HASH_COUNT (doc.length - SHINGLE_SIZE + 1) ∧
      (sig ++ rest).Perm (shingleHashes h doc) ∧
      ∀ a ∈ sig, ∀ b ∈ rest, a ≤ b := by
  have hnot : ¬ doc.length < SHINGLE_SIZE := not_lt.mpr hlen
  refine ⟨(List.insertionSort (fun x y => x ≤ y) (shingleHashes h doc)).take HASH_COUNT,
          (List.insertionSort (fun x y => x ≤ y) (shingleHashes h doc)).drop HASH_COUNT,
          ?_, ?_, ?_, ?_, ?_⟩
  · simp [min_hash_signature, hnot]
  · exact List.Pairwise.sublist (List.take_sublist _ _)
      (List.sorted_insertionSort _ _)
  · rw [List.length_take, List.length_insertionSort]
    simp [shingleHashes]
  · rw [List.take_append_drop]
    exact List.perm_insertionSort _ _
  · intro a ha b hbmem
    have hs : List.Pairwise (fun x y => x ≤ y)
        (List.insertionSort (fun x y => x ≤ y) (shingleHashes h doc)) :=
      List.sorted_insertionSort _ _
    rw [← List.take_append_drop HASH_COUNT
      (List.insertionSort (fun x y => x ≤ y) (shingleHashes h doc))] at hs
    exact (List.pairwise_append.mp hs).2.2 a ha b hbmem

/-- C3, witness for the amended theorem at the concrete document "AAAAA". -/
theorem C3_witness :
    ∃ sig rest, min_hash_signature hTest dA5 = some sig ∧
      sig.Sorted (fun x y => x ≤ y) ∧
      sig.length = min HASH_COUNT (dA5.length - SHINGLE_SIZE + 1) ∧
      (sig ++ rest).Perm (shingleHashes hTest dA5) ∧
      ∀ a ∈ sig, ∀ b ∈ rest, a ≤ b :=
  C3_amended hTest dA5 (by decide)

/-- The index built over the one-document corpus `["AAAA"]` (a document with
a single shingle, fewer than the band width `BAND_SIZE = 2`). -/
def B4 : Buckets := (index_documents hTest hbTest [dAAAA]).getD emptyBuckets

/-- A 103-character document, giving exactly `HASH_COUNT = 100` shingle
positions under the degenerate hasher `hZero`. -/
def doc103 : List Char := List.replicate 103 'A'

/-- The full-length signature of `doc103` under `hZero`. -/
def sig100 : List Nat := List.replicate 100 0

/-- C4, counterexample: the document "AAAA" has `shingle_count = 1 < W = 2`,
yet `chunked_min_hash` emits one (band slot, bucket key) pair — the hash of
the PARTIAL band `[c]` of width 1, from the trailing chunk of
`slice::chunks` — and `index_documents` files the document under it.  The
claim's "forms no band and is excluded from indexing" is false at this
input. -/
theorem C4_counterexample :
    chunked_min_hash hTest hbTest dAAAA = some [(0, hbTest [hTest dAAAA])] ∧
    chunked_min_hash hTest hbTest dAAAA ≠ some [] ∧
    (index_documents hTest hbTest [dAAAA]).isSome = true ∧
    0 ∈ B4 0 (hbTest [hTest dAAAA]) := by
  refine ⟨by decide, by decide, rfl, by decide⟩

/-- C4, amended: for a full-length signature (`K = HASH_COUNT` values),
banding yields exactly `K / W` pairs, the `j`-th being slot `j` paired with
the band hash of the ordered tuple of the `W` consecutive signature values
starting at `W * j`; and a document whose signature has a single value
(shingle count below the band width) still forms ONE partial band of width
1, which is hashed and indexed — it is not excluded. -/
theorem C4_amended :
    (∀ (h : HashF) (hb : BandHashF) (doc : List Char) (sig : List Nat),
      min_hash_signature h doc = some sig → sig.length = HASH_COUNT →
      ∃ pairs, chunked_min_hash h hb doc = some pairs ∧
        pairs.length = HASH_COUNT / BAND_SIZE ∧
        ∀ j < HASH_COUNT / BAND_SIZE,
          pairs.get? j = some (j, hb ((sig.drop (BAND_SIZE * j)).take BAND_SIZE))) ∧
    (∀ (h : HashF) (hb : BandHashF) (doc : List Char) (sig : List Nat),
      min_hash_signature h doc = some sig → sig.length = 1 →
      chunked_min_hash h hb doc = some [(0, hb sig)]) := by
  constructor
  · intro h hb doc sig hsig hlen
    refine ⟨((chunks2 sig).map hb).enum, by simp [chunked_min_hash, hsig], ?_, ?_⟩
    · rw [List.enum_length, List.length_map,
        chunks2_length sig.length sig le_rfl, hlen]
      decide
    · intro j hj
      have hj' : j < 50 := by simpa [HASH_COUNT, BAND_SIZE] using hj
      have hbound : 2 * j + 2 ≤ sig.length := by rw [hlen]; simp [HASH_COUNT]; omega
      rw [enum_get?, List.get?_map, chunks2_get? j sig hbound]
      simp [BAND_SIZE]
  · intro h hb doc sig hsig hlen
    cases sig with
    | nil => simp at hlen
    | cons x t =>
      cases t with
      | nil => simp [chunked_min_hash, hsig, chunks2, List.enum, List.enumFrom]
      | cons y t2 => simp at hlen

/-- C4, witness for the amended theorem: the full-length part at a
103-character document under the degenerate hasher (signature of length
exactly 100), the partial-band part at the document "AAAA". -/
theorem C4_witness :
    (∃ pairs, chunked_min_hash hZero hbTest doc103 = some pairs ∧
      pairs.length = HASH_COUNT / BAND_SIZE ∧
      ∀ j < HASH_COUNT / BAND_SIZE,
        pairs.get? j = some (j, hbTest ((sig100.drop (BAND_SIZE * j)).take BAND_SIZE))) ∧
    chunked_min_hash hTest hbTest dAAAA = some [(0, hbTest [hTest dAAAA])] :=
  ⟨C4_amended.1 hZero hbTest doc103 sig100 (by decide) (by decide),
   C4_amended.2 hTest hbTest dAAAA [hTest dAAAA] (by decide) (by decide)⟩


/-! Evaluation helpers: `Rat` division does not reduce in the kernel, so
concrete similarity values are produced as literals (`some 1`, `some 0`,
`none`) by rewriting before any `decide`. -/

theorem jaccard_of_eq_nonempty {a b : Finset Nat} (hab : a = b)
    (hne : a.Nonempty) : jaccard_similarity a b = some 1 := by
  subst hab
  have hcard : a.card ≠ 0 := Nat.pos_iff_ne_zero.mp (Finset.card_pos.mpr hne)
  have hd : a.card + a.card - a.card = a.card := by omega
  simp only [jaccard_similarity, Finset.inter_self, hd, if_neg hcard]
  congr 1
  exact div_self (Nat.cast_ne_zero.mpr hcard)

theorem jaccard_of_disjoint {a b : Finset Nat} (hi : a ∩ b = ∅)
    (hd : a.card + b.card ≠ 0) : jaccard_similarity a b = some 0 := by
  simp only [jaccard_similarity, hi, Finset.card_empty, Nat.sub_zero,
    if_neg hd]
  simp

theorem jaccard_nan_iff (a b : Finset Nat) :
    jaccard_similarity a b = none ↔ (a = ∅ ∧ b = ∅) := by
  constructor
  · intro hn
    by_cases hden : a.card + b.card - (a ∩ b).card = 0
    · have hui : (a ∪ b).card + (a ∩ b).card = a.card + b.card :=
        Finset.card_union_add_card_inter a b
      have hinter : (a ∩ b).card ≤ a.card := Finset.card_le_card
        (Finset.inter_subset_left)
      have hcard : (a ∪ b).card = 0 := by omega
      have hu : a ∪ b = ∅ := Finset.card_eq_zero.mp hcard
      exact Finset.union_eq_empty.mp hu
    · rw [jaccard_similarity] at hn
      simp only [if_neg hden] at hn
      exact absurd hn (Option.some_ne_none _)
  · rintro ⟨rfl, rfl⟩
    simp [jaccard_similarity]

theorem scoreList_nil (h : HashF) (qs : Finset Nat) (docs : List (List Char)) :
    scoreList h qs [] docs = some [] := rfl

theorem scoreList_cons {h : HashF} {qs : Finset Nat} {m : Nat}
    {enum : List Nat} {docs : List (List Char)} {doc : List Char}
    {ds : Finset Nat} {rest : List (Nat × F)}
    (hdoc : docs.get? m = some doc) (hds : string_shingles h doc = some ds)
    (hrest : scoreList h qs enum docs = some rest) :
    scoreList h qs (m :: enum) docs =
      some ((m, jaccard_similarity qs ds) :: rest) := by
  unfold scoreList at hrest ⊢
  simp only [optMapList, hdoc, hds, hrest, Option.some_bind, Option.map_some']

theorem nearest_eval {h : HashF} {q : List Char} {n : Nat} {enum : List Nat}
    {docs : List (List Char)} {qs : Finset Nat} {scored : List (Nat × F)}
    (hq : string_shingles h q = some qs)
    (hsc : scoreList h qs enum docs = some scored) :
    nearest_neighbors h q n enum docs =
      if 2 ≤ scored.length ∧ ∃ p ∈ scored, p.2 = none then none
      else some ((List.insertionSort rDesc scored).take n) := by
  simp [nearest_neighbors, hq, hsc]

/-! Concrete evaluations over the two-identical-document corpus
`["AAAAA", "AAAAA"]`. -/

/-- The two-identical-document corpus `["AAAAA", "AAAAA"]`. -/
def docs5 : List (List Char) := [dA5, dA5]

/-- The index built over `docs5`. -/
def B5 : Buckets := (index_documents hTest hbTest docs5).getD emptyBuckets

theorem g5_0 : docs5.get? 0 = some dA5 := rfl

theorem g5_1 : docs5.get? 1 = some dA5 := rfl

theorem ssA5 : string_shingles hTest dA5 = some {hTest dAAAA} := by decide

theorem jacc5 :
    jaccard_similarity ({hTest dAAAA} : Finset Nat) {hTest dAAAA} = some 1 :=
  jaccard_of_eq_nonempty rfl ⟨hTest dAAAA, Finset.mem_singleton_self _⟩

theorem scored5_10 :
    scoreList hTest {hTest dAAAA} [1, 0] docs5 = some [(1, some 1), (0, some 1)] := by
  rw [scoreList_cons g5_1 ssA5 (scoreList_cons g5_0 ssA5
    (scoreList_nil hTest {hTest dAAAA} docs5)), jacc5]

theorem scored5_0 :
    scoreList hTest {hTest dAAAA} [0] docs5 = some [(0, some 1)] := by
  rw [scoreList_cons g5_0 ssA5 (scoreList_nil hTest {hTest dAAAA} docs5), jacc5]

theorem nearest5_10 :
    nearest_neighbors hTest dA5 25 [1, 0] docs5 = some [(1, some 1), (0, some 1)] := by
  rw [nearest_eval ssA5 scored5_10]
  decide

theorem nearest5_0 :
    nearest_neighbors hTest dA5 25 [0] docs5 = some [(0, some 1)] := by
  rw [nearest_eval ssA5 scored5_0]
  decide

/-- C5, counterexample: querying the corpus `["AAAAA", "AAAAA"]` with
"AAAAA" produces the candidate set `{0, 1}`; `[1, 0]` is a possible
iteration order of that `HashSet` (its `RandomState` seed is random per
run).  Both candidates score exactly 1, and the stable sort — whose
comparator looks only at the similarity, never at the id — leaves them in
iteration order, so the result is `[(1, 1.0), (0, 1.0)]`: equal-similarity
entries NOT in ascending id order, refuting the claimed tie-break. -/
theorem C5_counterexample :
    validEnum ((search_matches hTest hbTest B5 dA5).getD ∅) [1, 0] ∧
    (search_matches hTest hbTest B5 dA5).isSome = true ∧
    nearest_neighbors hTest dA5 25 [1, 0] docs5 = some [(1, some 1), (0, some 1)] ∧
    ¬ descWithIdTieBreak [(1, some 1), (0, some 1)] := by
  refine ⟨⟨by decide, by decide⟩, rfl, nearest5_10, by decide⟩

/-- C5, amended: the result list is sorted in descending order of the exact
similarity values; nothing more — candidates with equal similarity stay in
the candidate-set iteration order (the sort is stable and its comparator
never consults the document id), so no ascending-id tie-break holds. -/
theorem C5_amended (h : HashF) (q : List Char) (n : Nat) (enum : List Nat)
    (docs : List (List Char)) (l : List (Nat × F))
    (hl : nearest_neighbors h q n enum docs = some l) :
    l.Sorted rDesc := by
  obtain ⟨qs, scored, hq, hsc, hcond, rfl⟩ := nearest_some_elim hl
  exact List.Pairwise.sublist (List.take_sublist _ _)
    (List.sorted_insertionSort _ _)

/-- C5, witness for the amended theorem at a concrete one-candidate query. -/
theorem C5_witness : ([(0, (some 1 : F))] : List (Nat × F)).Sorted rDesc :=
  C5_amended hTest dA5 25 [0] docs5 [(0, some 1)] nearest5_0

/-- C6: the query engine returns `min n candidate_count` results — at most
`n`, and exactly the number of genuine candidates when fewer exist; every
returned entry carries a candidate's id (no padding with placeholder
entries; the `resize` in the source is guarded by `len > n` and only
truncates); and an empty candidate set yields `some []` — an empty list,
not an error — for any query long enough to shingle. -/
theorem C6_thm (h : HashF) (q : List Char) (n : Nat) (enum : List Nat)
    (docs : List (List Char)) (l : List (Nat × F)) :
    (nearest_neighbors h q n enum docs = some l →
      l.length = min n enum.length ∧ ∀ p ∈ l, p.1 ∈ enum) ∧
    (SHINGLE_SIZE ≤ q.length → nearest_neighbors h q n [] docs = some []) := by
  constructor
  · intro hl
    obtain ⟨qs, scored, hq, hsc, hcond, rfl⟩ := nearest_some_elim hl
    constructor
    · rw [List.length_take, List.length_insertionSort, optMapList_length hsc]
    · intro p hp
      have hp' : p ∈ List.insertionSort rDesc scored :=
        List.take_subset _ _ hp
      have hp'' : p ∈ scored := (List.mem_insertionSort rDesc).mp hp'
      exact (scoreList_mem hsc p hp'').1
  · intro hq
    have hnot : ¬ q.length < SHINGLE_SIZE := not_lt.mpr hq
    simp [nearest_neighbors, string_shingles, hnot, scoreList, optMapList,
      List.insertionSort]

/-- C6, witness: a one-candidate query (min 25 1 = 1 results, the entry is a
genuine candidate) and the empty-candidate-set case succeeding with `[]`. -/
theorem C6_witness :
    (([(0, (some 1 : F))] : List (Nat × F)).length = min 25 ([0] : List Nat).length ∧
      ∀ p ∈ ([(0, (some 1 : F))] : List (Nat × F)), p.1 ∈ ([0] : List Nat)) ∧
    nearest_neighbors hTest dA5 25 [] docs5 = some [] :=
  ⟨(C6_thm hTest dA5 25 [0] docs5 [(0, some 1)]).1 nearest5_0,
   (C6_thm hTest dA5 25 [] docs5 []).2 (by decide)⟩

/-- C7: if two indexed documents both sit in bucket `k` of band slot `i`,
then querying with either document's text finds both in the candidate set:
the query pipeline recomputes the same banded signature, which contains
`(i, k)`, and `search_index` unions that bucket's id list into `matches`. -/
theorem C7_thm (h : HashF) (hb : BandHashF) (docs : List (List Char))
    (B : Buckets) (i k a b : Nat) (da db : List Char)
    (hB : index_documents h hb docs = some B)
    (ha : a ∈ B i k) (hbmem : b ∈ B i k)
    (hda : docs.get? a = some da) (hdb : docs.get? b = some db) :
    ((search_matches h hb B da).isSome = true ∧
      a ∈ (search_matches h hb B da).getD ∅ ∧
      b ∈ (search_matches h hb B da).getD ∅) ∧
    ((search_matches h hb B db).isSome = true ∧
      a ∈ (search_matches h hb B db).getD ∅ ∧
      b ∈ (search_matches h hb B db).getD ∅) := by
  obtain ⟨da', siga, hda', hcha, hmema⟩ := (mem_index_iff hB i k a).mp ha
  obtain ⟨db', sigb, hdb', hchb, hmemb⟩ := (mem_index_iff hB i k b).mp hbmem
  rw [hda] at hda'
  obtain rfl := Option.some.inj hda'
  rw [hdb] at hdb'
  obtain rfl := Option.some.inj hdb'
  have hsa := search_matches_eq (B := B) hcha
  have hsb := search_matches_eq (B := B) hchb
  constructor
  · refine ⟨by rw [hsa]; rfl, ?_, ?_⟩
    · rw [hsa, Option.getD_some]
      exact (mem_foldl_union B a siga ∅).mpr (Or.inr ⟨(i, k), hmema, ha⟩)
    · rw [hsa, Option.getD_some]
      exact (mem_foldl_union B b siga ∅).mpr (Or.inr ⟨(i, k), hmema, hbmem⟩)
  · refine ⟨by rw [hsb]; rfl, ?_, ?_⟩
    · rw [hsb, Option.getD_some]
      exact (mem_foldl_union B a sigb ∅).mpr (Or.inr ⟨(i, k), hmemb, ha⟩)
    · rw [hsb, Option.getD_some]
      exact (mem_foldl_union B b sigb ∅).mpr (Or.inr ⟨(i, k), hmemb, hbmem⟩)

/-- The two-identical-document corpus `["ABCDE", "ABCDE"]`. -/
def docs7 : List (List Char) := [dABCDE, dABCDE]

/-- The index built over `docs7`. -/
def B7 : Buckets := (index_documents hTest hbTest docs7).getD emptyBuckets

/-- The bucket key of the single band of "ABCDE" under the test hashers. -/
def k7 : Nat := (((chunked_min_hash hTest hbTest dABCDE).getD []).headD (0, 0)).2

/-- C7, witness: documents 0 and 1 of `docs7` (identical texts) share the
band-0 bucket `k7`, and both appear in the candidate set when either text
queries the index. -/
theorem C7_witness :
    ((search_matches hTest hbTest B7 dABCDE).isSome = true ∧
      0 ∈ (search_matches hTest hbTest B7 dABCDE).getD ∅ ∧
      1 ∈ (search_matches hTest hbTest B7 dABCDE).getD ∅) ∧
    ((search_matches hTest hbTest B7 dABCDE).isSome = true ∧
      0 ∈ (search_matches hTest hbTest B7 dABCDE).getD ∅ ∧
      1 ∈ (search_matches hTest hbTest B7 dABCDE).getD ∅) :=
  C7_thm hTest hbTest docs7 B7 0 k7 0 1 dABCDE dABCDE rfl (by decide)
    (by decide) rfl rfl

/-- The two-identical-short-document corpus `["AAAA", "AAAA"]`: both
documents (and the query "AAAA") have an EMPTY `string_shingles` set thanks
to the off-by-one, making every reranking similarity 0/0. -/
def docs8 : List (List Char) := [dAAAA, dAAAA]

/-- The index built over `docs8`. -/
def B8 : Buckets := (index_documents hTest hbTest docs8).getD emptyBuckets

theorem g8_0 : docs8.get? 0 = some dAAAA := rfl

theorem g8_1 : docs8.get? 1 = some dAAAA := rfl

theorem ssAAAA : string_shingles hTest dAAAA = some ∅ := by decide

theorem jaccEE : jaccard_similarity ∅ ∅ = none :=
  (jaccard_nan_iff ∅ ∅).mpr ⟨rfl, rfl⟩

theorem scored8 :
    scoreList hTest ∅ [0, 1] docs8 = some [(0, none), (1, none)] := by
  rw [scoreList_cons g8_0 ssAAAA (scoreList_cons g8_1 ssAAAA
    (scoreList_nil hTest ∅ docs8)), jaccEE]

theorem nearest8 : nearest_neighbors hTest dAAAA 5 [0, 1] docs8 = none := by
  rw [nearest_eval ssAAAA scored8]
  decide

/-- C8, counterexample: `jaccard_similarity(∅, ∅)` is `0.0 / 0.0 = NaN`
(modelled `none`), not the claimed `0.0`; and the subsequent sort DOES
terminate abnormally because of it: querying the index over
`["AAAA", "AAAA"]` with "AAAA" yields the genuine candidate set `{0, 1}`,
both candidates (and the query) have empty reranking shingle sets, both
similarities are NaN, and `partial_cmp(..).unwrap()` in the sort comparator
panics — `search_index` returns `none`. -/
theorem C8_counterexample :
    jaccard_similarity ∅ ∅ ≠ some 0 ∧
    string_shingles hTest dAAAA = some ∅ ∧
    validEnum ((search_matches hTest hbTest B8 dAAAA).getD ∅) [0, 1] ∧
    search_index hTest hbTest docs8 B8 dAAAA 5 [0, 1] = none := by
  refine ⟨?_, by decide, ⟨by decide, by decide⟩, ?_⟩
  · rw [jaccEE]
    simp
  · have hsm : (search_matches hTest hbTest B8 dAAAA).isSome = true := rfl
    obtain ⟨M8, hM8⟩ := Option.isSome_iff_exists.mp hsm
    simp [search_index, hM8, nearest8]

/-- C8, amended: `jaccard_similarity` returns NaN (`none`) exactly when both
shingle sets are empty (the 0/0 case is NOT resolved to `0.0` — the plain
`f32` division produces NaN and no error is raised at that point); and
whenever the scored candidate list has at least two entries and contains a
NaN similarity, the sort comparator's `unwrap` panics and the query
terminates abnormally. -/
theorem C8_amended :
    (∀ a b : Finset Nat, jaccard_similarity a b = none ↔ (a = ∅ ∧ b = ∅)) ∧
    (∀ (h : HashF) (q : List Char) (n : Nat) (enum : List Nat)
      (docs : List (List Char)) (qs : Finset Nat) (scored : List (Nat × F)),
      string_shingles h q = some qs →
      scoreList h qs enum docs = some scored →
      2 ≤ scored.length → (∃ p ∈ scored, p.2 = none) →
      nearest_neighbors h q n enum docs = none) := by
  constructor
  · exact jaccard_nan_iff
  · intro h q n enum docs qs scored hq hsc hlen hnan
    rw [nearest_eval hq hsc, if_pos ⟨hlen, hnan⟩]

/-- C8, witness for the amended theorem: the NaN characterisation at the
empty sets, and the panic at the concrete corpus `["AAAA", "AAAA"]`. -/
theorem C8_witness :
    (jaccard_similarity ∅ ∅ = none ↔
      ((∅ : Finset Nat) = ∅ ∧ (∅ : Finset Nat) = ∅)) ∧
    nearest_neighbors hTest dAAAA 5 [0, 1] docs8 = none :=
  ⟨C8_amended.1 ∅ ∅,
   C8_amended.2 hTest dAAAA 5 [0, 1] docs8 ∅ [(0, none), (1, none)]
     (by decide) scored8 (by decide) (by decide)⟩

/-! Concrete evaluations over `docs7 = ["ABCDE", "ABCDE"]` for the
determinism claim. -/

def dABCD : List Char := ['A', 'B', 'C', 'D']

theorem g7_0 : docs7.get? 0 = some dABCDE := rfl

theorem g7_1 : docs7.get? 1 = some dABCDE := rfl

theorem ss7 : string_shingles hTest dABCDE = some {hTest dABCD} := by decide

theorem jacc7 :
    jaccard_similarity ({hTest dABCD} : Finset Nat) {hTest dABCD} = some 1 :=
  jaccard_of_eq_nonempty rfl ⟨hTest dABCD, Finset.mem_singleton_self _⟩

theorem scored7_01 :
    scoreList hTest {hTest dABCD} [0, 1] docs7 = some [(0, some 1), (1, some 1)] := by
  rw [scoreList_cons g7_0 ss7 (scoreList_cons g7_1 ss7
    (scoreList_nil hTest {hTest dABCD} docs7)), jacc7]

theorem scored7_10 :
    scoreList hTest {hTest dABCD} [1, 0] docs7 = some [(1, some 1), (0, some 1)] := by
  rw [scoreList_cons g7_1 ss7 (scoreList_cons g7_0 ss7
    (scoreList_nil hTest {hTest dABCD} docs7)), jacc7]

theorem nearest7_01 :
    nearest_neighbors hTest dABCDE 25 [0, 1] docs7 = some [(0, some 1), (1, some 1)] := by
  rw [nearest_eval ss7 scored7_01]
  decide

theorem nearest7_10 :
    nearest_neighbors hTest dABCDE 25 [1, 0] docs7 = some [(1, some 1), (0, some 1)] := by
  rw [nearest_eval ss7 scored7_10]
  decide

/-- The candidate set of querying `docs7`'s index with "ABCDE". -/
def M7 : Finset Nat := (search_matches hTest hbTest B7 dABCDE).getD ∅

theorem sm7 : search_matches hTest hbTest B7 dABCDE = some M7 := rfl

/-- C9, counterexample: on the corpus `["ABCDE", "ABCDE"]` with query
"ABCDE" (`top_n = 25`), both `[0, 1]` and `[1, 0]` are possible iteration
orders of the candidate `HashSet {0, 1}` — the per-run random `RandomState`
seed decides which one a run observes — and the two runs return DIFFERENT
ranked lists, `[(0, 1.0), (1, 1.0)]` vs `[(1, 1.0), (0, 1.0)]`: build +
search is not deterministic across runs when similarities tie. -/
theorem C9_counterexample :
    validEnum M7 [0, 1] ∧ validEnum M7 [1, 0] ∧
    search_index hTest hbTest docs7 B7 dABCDE 25 [0, 1] =
      some (M7, [(0, some 1), (1, some 1)]) ∧
    search_index hTest hbTest docs7 B7 dABCDE 25 [1, 0] =
      some (M7, [(1, some 1), (0, some 1)]) ∧
    ((M7, [(0, (some 1 : F)), (1, some 1)]) ≠ (M7, [(1, some 1), (0, some 1)])) := by
  refine ⟨⟨by decide, by decide⟩, ⟨by decide, by decide⟩, ?_, ?_, ?_⟩
  · simp [search_index, sm7, nearest7_01]
  · simp [search_index, sm7, nearest7_10]
  · intro hcontra
    have := congrArg Prod.snd hcontra
    simp at this

/-- C9, amended: the search result is deterministic up to the ordering of
equal-similarity candidates.  Precisely: two runs over the same corpus,
query and budget that observe any two valid iteration orders of the same
candidate set return IDENTICAL ranked lists provided the candidates'
similarity values are pairwise distinct (with ties, the tied ids may appear
in either order, as the counterexample shows). -/
theorem C9_amended (h : HashF) (q : List Char) (n : Nat)
    (docs : List (List Char)) (m : Finset Nat) (e₁ e₂ : List Nat)
    (qs : Finset Nat) (s₁ l₁ l₂ : List (Nat × F))
    (he₁ : validEnum m e₁) (he₂ : validEnum m e₂)
    (hqs : string_shingles h q = some qs)
    (hs₁ : scoreList h qs e₁ docs = some s₁)
    (hdist : s₁.Pairwise (fun p p' => simVal p ≠ simVal p'))
    (h₁ : nearest_neighbors h q n e₁ docs = some l₁)
    (h₂ : nearest_neighbors h q n e₂ docs = some l₂) :
    l₁ = l₂ := by
  obtain ⟨qs₁, sc₁, hq₁, hsc₁, hcond₁, hl₁⟩ := nearest_some_elim h₁
  obtain ⟨qs₂, sc₂, hq₂, hsc₂, hcond₂, hl₂⟩ := nearest_some_elim h₂
  rw [hqs] at hq₁ hq₂
  obtain rfl := Option.some.inj hq₁
  obtain rfl := Option.some.inj hq₂
  rw [hs₁] at hsc₁
  obtain rfl := Option.some.inj hsc₁
  have hperm : e₁.Perm e₂ :=
    List.perm_of_nodup_nodup_toFinset_eq he₁.1 he₂.1 (he₁.2.trans he₂.2.symm)
  unfold scoreList at hs₁ hsc₂
  have hm₁ := optMapList_eq_map ((0 : Nat), (none : F)) hs₁
  have hm₂ := optMapList_eq_map ((0 : Nat), (none : F)) hsc₂
  have hscperm : s₁.Perm sc₂ := by
    rw [hm₁, hm₂]
    exact hperm.map _
  have hsorted₁ : List.Sorted rDesc (List.insertionSort rDesc s₁) :=
    List.sorted_insertionSort rDesc s₁
  have hsorted₂ : List.Sorted rDesc (List.insertionSort rDesc sc₂) :=
    List.sorted_insertionSort rDesc sc₂
  have hpermsort :
      (List.insertionSort rDesc s₁).Perm (List.insertionSort rDesc sc₂) :=
    (List.perm_insertionSort rDesc s₁).trans
      (hscperm.trans (List.perm_insertionSort rDesc sc₂).symm)
  have hdist₁ :
      (List.insertionSort rDesc s₁).Pairwise (fun p p' => simVal p ≠ simVal p') :=
    ((List.perm_insertionSort rDesc s₁).pairwise_iff
      (fun hxy => hxy.symm)).mpr hdist
  have hdist₂ :
      (List.insertionSort rDesc sc₂).Pairwise (fun p p' => simVal p ≠ simVal p') :=
    (hpermsort.pairwise_iff (fun hxy => hxy.symm)).mp hdist₁
  have hstrict₁ : List.Pairwise rStrict (List.insertionSort rDesc s₁) :=
    (hsorted₁.and hdist₁).imp
      (fun hab => lt_of_le_of_ne hab.1 (fun he => hab.2 he.symm))
  have hstrict₂ : List.Pairwise rStrict (List.insertionSort rDesc sc₂) :=
    (hsorted₂.and hdist₂).imp
      (fun hab => lt_of_le_of_ne hab.1 (fun he => hab.2 he.symm))
  have heq : List.insertionSort rDesc s₁ = List.insertionSort rDesc sc₂ :=
    List.eq_of_perm_of_sorted hpermsort hstrict₁ hstrict₂
  rw [hl₁, hl₂, heq]

/-! A two-document corpus with DISTINCT similarities to the query "ABCDE":
document 0 is identical to the query (similarity 1), document 1 is disjoint
from it (similarity 0). -/

def dVWXYZ : List Char := ['V', 'W', 'X', 'Y', 'Z']

def dVWXY : List Char := ['V', 'W', 'X', 'Y']

def docs9w : List (List Char) := [dABCDE, dVWXYZ]

theorem g9_0 : docs9w.get? 0 = some dABCDE := rfl

theorem g9_1 : docs9w.get? 1 = some dVWXYZ := rfl

theorem ss9v : string_shingles hTest dVWXYZ = some {hTest dVWXY} := by decide

theorem jacc9 :
    jaccard_similarity ({hTest dABCD} : Finset Nat) {hTest dVWXY} = some 0 :=
  jaccard_of_disjoint (by decide) (by decide)

theorem scored9_01 :
    scoreList hTest {hTest dABCD} [0, 1] docs9w = some [(0, some 1), (1, some 0)] := by
  rw [scoreList_cons g9_0 ss7 (scoreList_cons g9_1 ss9v
    (scoreList_nil hTest {hTest dABCD} docs9w)), jacc7, jacc9]

theorem scored9_10 :
    scoreList hTest {hTest dABCD} [1, 0] docs9w = some [(1, some 0), (0, some 1)] := by
  rw [scoreList_cons g9_1 ss9v (scoreList_cons g9_0 ss7
    (scoreList_nil hTest {hTest dABCD} docs9w)), jacc7, jacc9]

theorem nearest9_01 :
    nearest_neighbors hTest dABCDE 25 [0, 1] docs9w = some [(0, some 1), (1, some 0)] := by
  rw [nearest_eval ss7 scored9_01]
  decide

theorem nearest9_10 :
    nearest_neighbors hTest dABCDE 25 [1, 0] docs9w = some [(0, some 1), (1, some 0)] := by
  rw [nearest_eval ss7 scored9_10]
  decide

/-- C9, witness for the amended theorem: with distinct similarities (1 and
0), the two iteration orders `[0, 1]` and `[1, 0]` of the candidate set
`{0, 1}` produce the same ranked list. -/
theorem C9_witness :
    validEnum {0, 1} [0, 1] ∧ validEnum {0, 1} [1, 0] ∧
    ([(0, (some 1 : F)), (1, some 0)] : List (Nat × F)).Pairwise
      (fun p p' => simVal p ≠ simVal p') ∧
    ([(0, (some 1 : F)), (1, some 0)] : List (Nat × F)) = [(0, some 1), (1, some 0)] :=
  ⟨⟨by decide, by decide⟩, ⟨by decide, by decide⟩, by decide,
   C9_amended hTest dABCDE 25 docs9w {0, 1} [0, 1] [1, 0] {hTest dABCD}
     [(0, some 1), (1, some 0)] [(0, some 1), (1, some 0)] [(0, some 1), (1, some 0)]
     ⟨by decide, by decide⟩ ⟨by decide, by decide⟩ ss7 scored9_01 (by decide)
     nearest9_01 nearest9_10⟩

/-- C10: in any successfully built index, (1) every document id stored in
any bucket list is a valid corpus index (< number of documents); (2) within
one band-slot table a document id determines the bucket key — the id occurs
in at most one bucket list per slot, since a document's banded signature
carries exactly one key per slot; and (3) consequently every candidate id
drawn from the index by `search_matches` is in bounds for the
`documents[*m]` lookup during reranking. -/
theorem C10_thm (h : HashF) (hb : BandHashF) (docs : List (List Char))
    (B : Buckets) (hB : index_documents h hb docs = some B) :
    (∀ i k x, x ∈ B i k → x < docs.length) ∧
    (∀ i k k' x, x ∈ B i k → x ∈ B i k' → k = k') ∧
    (∀ q M x, search_matches h hb B q = some M → x ∈ M → x < docs.length) := by
  have hbound : ∀ i k x, x ∈ B i k → x < docs.length := by
    intro i k x hx
    obtain ⟨da, sig, hda, _, _⟩ := (mem_index_iff hB i k x).mp hx
    by_contra hge
    rw [List.get?_eq_none.mpr (by omega)] at hda
    exact Option.noConfusion hda
  refine ⟨hbound, ?_, ?_⟩
  · intro i k k' x hx hx'
    obtain ⟨da, sig, hda, hch, hmem⟩ := (mem_index_iff hB i k x).mp hx
    obtain ⟨da', sig', hda', hch', hmem'⟩ := (mem_index_iff hB i k' x).mp hx'
    rw [hda] at hda'
    obtain rfl := Option.some.inj hda'
    rw [hch] at hch'
    obtain rfl := Option.some.inj hch'
    unfold chunked_min_hash at hch
    cases hms : min_hash_signature h da with
    | none => rw [hms] at hch; exact absurd hch (by simp)
    | some s =>
      rw [hms] at hch
      simp only [Option.map_some'] at hch
      obtain rfl := Option.some.inj hch
      rw [mem_enum_iff] at hmem hmem'
      rw [hmem] at hmem'
      exact Option.some.inj hmem'
  · intro q M x hM hx
    cases hcq : chunked_min_hash h hb q with
    | none => rw [search_matches, hcq] at hM; exact absurd hM (by simp)
    | some sigq =>
      obtain ⟨p, _, hxp⟩ := (mem_search_matches hcq hM x).mp hx
      exact hbound p.1 p.2 x hxp

/-- C10, witness at the concrete two-document index `B7`. -/
theorem C10_witness :
    (∀ i k x, x ∈ B7 i k → x < docs7.length) ∧
    (∀ i k k' x, x ∈ B7 i k → x ∈ B7 i k' → k = k') ∧
    (∀ q M x, search_matches hTest hbTest B7 q = some M → x ∈ M →
      x < docs7.length) :=
  C10_thm hTest hbTest docs7 B7 rfl
